import Mathlib

/-
Verification development for the incremental corpus synchronization script
(update_map.py).  The script's main block loads a parquet table, migrates a
legacy column, prunes to a rolling 5-day window, fetches new arXiv records
with a bounded retry loop, normalizes them, scores the genuinely new ones
with a keyword/author-count heuristic, merges, prunes again and persists.

The embedding below models the rows of the pandas DataFrames as Lean
structures, dates as their `%Y-%m-%d` strings (pandas compares such columns
lexicographically, which we model with an explicit code-point comparison),
and the regular-expression institution search as an executable word-boundary
matcher over lowered character lists.
-/

/-- One row of the persisted table / of the in-flight DataFrames.  Fields
`tldr`, `Reputation` and `label` are filled in by the pipeline; rows coming
straight out of normalization carry empty strings there (the corresponding
DataFrame columns do not exist yet at that point, and they are always
assigned before the row can reach the persisted table). -/
structure Rec where
  id : String
  title : String
  text : String
  url : String
  date : String
  authors : List String
  tldr : String
  Reputation : String
  label : String
deriving DecidableEq

/-- A raw provider result (the fields of an `arxiv.Result` the script reads).
`published` is the `%Y-%m-%d` rendering of the publication timestamp. -/
structure Raw where
  entry_id : String
  title : String
  summary : String
  pdf_url : String
  published : String
  authors : List String
deriving DecidableEq

/-- The on-disk parquet table.  `legacyCol` records whether the reputation
column is still named by its legacy name `Paper_Priority` (`true`) or by the
current name `Reputation` (`false`); these are the two column names the
program and its predecessor ever wrote. -/
structure StoredTable where
  legacyCol : Bool
  rows : List Rec
deriving DecidableEq

def DB_PATH : String := "database.parquet"

/- ---------------------------------------------------------------------
   Character/string utilities shared by the scorer and the store model.
   --------------------------------------------------------------------- -/

/-- Python `str.lower()` on the ASCII inputs involved, as a character list. -/
def lowerData (s : String) : List Char := s.data.map Char.toLower

/-- A regex word character (`\w`): ASCII letter, digit or underscore. -/
def isWordChar (c : Char) : Bool := c.isAlphanum || c == '_'

/-- Code-point lexicographic strict comparison, i.e. Python `str <` on the
values at hand; pandas compares the `date` column with exactly this order. -/
def charListLt : List Char → List Char → Bool
  | [], [] => false
  | [], _ :: _ => true
  | _ :: _, [] => false
  | a :: as, b :: bs =>
    if a.val < b.val then true
    else if b.val < a.val then false
    else charListLt as bs

/-- Python `a >= b` on strings. -/
def dateGe (a b : String) : Bool := !(charListLt a.data b.data)

/-- The pattern `pat` occurs in `text` starting at index `i`. -/
def subMatchAt (text pat : List Char) (i : Nat) : Bool :=
  decide ((text.drop i).take pat.length = pat)

/-- Word boundary on the left of index `i`. -/
def boundedBefore (text : List Char) (i : Nat) : Bool :=
  i == 0 || !(isWordChar (text.getD (i - 1) ' '))

/-- Word boundary on the right of index `j` (one past the match). -/
def boundedAfter (text : List Char) (j : Nat) : Bool :=
  !(isWordChar (text.getD j ' '))

/-- The pattern occurs at `i` delimited by word boundaries, as `\bpat\b`
matches there (all configured patterns start and end with word chars). -/
def wordMatchAt (text pat : List Char) (i : Nat) : Bool :=
  subMatchAt text pat i && boundedBefore text i && boundedAfter text (i + pat.length)

/-- Python `pat in text` (plain substring containment). -/
def substrOccurs (pat text : List Char) : Bool :=
  (List.range (text.length + 1)).any (fun i => subMatchAt text pat i)

/-- `re.search` of `\bpat\b` succeeds somewhere in `text`. -/
def wordOccurs (pat text : List Char) : Bool :=
  (List.range (text.length + 1)).any (fun i => wordMatchAt text pat i)

/- ---------------------------------------------------------------------
   Reputation scorer (calculate_reputation, lines 35-48).
   --------------------------------------------------------------------- -/

/-- An ASCII apostrophe, used inside two institution names. -/
def apos : String := String.singleton (Char.ofNat 39)

def xianJiaotong : String := "Xi" ++ apos ++ "an Jiaotong"

def noahsArk : String := "Noah" ++ apos ++ "s Ark"

/-- The alternatives of `INSTITUTION_PATTERN`, in source order. -/
def institutions : List String := [
  "MIT", "Stanford", "CMU", "Carnegie Mellon", "UC Berkeley", "Harvard", "Princeton",
  "Cornell", "UWashington", "UMich", "Georgia Tech", "UT Austin", "UIUC", "NYU",
  "UCLA", "Columbia", "UPenn", "USC", "UCSD", "UMass", "Johns Hopkins",
  "DeepMind", "OpenAI", "Anthropic", "FAIR", "Meta AI", "Microsoft Research",
  "IBM Research", "Amazon AI", "AWS AI", "NVIDIA", "Adobe Research", "Apple Research",
  "Vector Institute", "MILA", "UBC", "McGill", "AMII", "Oxford", "Cambridge", "UCL",
  "Imperial College", "Edinburgh", "Alan Turing", "ETH Zurich", "EPFL", "Max Planck",
  "TUM", "Amsterdam", "KU Leuven", "INRIA", "Sorbonne", "Copenhagen", "Tsinghua",
  "Peking", "Chinese Academy of Sciences", "SJtu", "Zhejiang", "Fudan", "Nanjing",
  "USTC", "Harbin Institute", xianJiaotong, "Beihang", "CUHK", "HKUST", "HKU",
  "Baidu", "Alibaba", "DAMO", "Tencent", "Huawei", noahsArk, "ByteDance",
  "SenseTime", "Megvii", "iFlytek", "JD AI", "Xiaomi", "DiDi", "Kuaishou", "PingAn",
  "NetEase", "Meituan", "National University of Singapore", "NUS", "UTokyo", "KAIST",
  "SNU", "RIKEN", "Naver", "Samsung", "IISc", "IIT", "Tel Aviv", "Technion",
  "ANU", "Melbourne", "Sydney"]

/-- `INSTITUTION_PATTERN.search(full_text)` is truthy: some alternative
matches somewhere with word boundaries, case-insensitively (the pattern is
compiled with `re.IGNORECASE` and the text is already lowered, so each
alternative is lowered before matching). -/
def instSearch (ft : List Char) : Bool :=
  institutions.any (fun p => wordOccurs (lowerData p) ft)

/-- The artifact-availability keyword list of line 42 (written lowercase in
the source and checked with plain `in`). -/
def artifactKeywords : List String :=
  ["github.com", "huggingface.co", "open-source", "code available"]

def rigor_keys : List String :=
  ["benchmark", "sota", "outperforms", "state-of-the-art", "comprehensive", "ablation"]

def artifactHit (ft : List Char) : Bool :=
  artifactKeywords.any (fun k => substrOccurs k.data ft)

def rigorHit (ft : List Char) : Bool :=
  rigor_keys.any (fun k => substrOccurs k.data ft)

/-- `f"{row['title']} {row['text']}".lower()`. -/
def fullTextOf (r : Rec) : List Char := lowerData (r.title ++ " " ++ r.text)

/-- The integer accumulated by `calculate_reputation` before thresholding,
with the source's accumulation order. -/
def reputation_score (r : Rec) : Nat :=
  let full_text := fullTextOf r
  let score0 := 0
  let score1 := if instSearch full_text then score0 + 3 else score0
  let num_authors := r.authors.length
  let score2 :=
    if 8 ≤ num_authors then score1 + 2
    else if 4 ≤ num_authors then score1 + 1
    else score1
  let score3 := if artifactHit full_text then score2 + 2 else score2
  let score4 := if rigorHit full_text then score3 + 1 else score3
  score4

/-- `calculate_reputation` (lines 35-48): threshold the accumulated score. -/
def calculate_reputation (r : Rec) : String :=
  if 4 ≤ reputation_score r then "Reputation Enhanced" else "Reputation Std."

/-- Modelled from the spec: the score described in the claim, a plain sum of
the five independent contributions (institution +3, artifacts +2, rigor +1,
`authorCount ≥ 8` +2, `4 ≤ authorCount < 8` +1). -/
def specScore (r : Rec) : Nat :=
  (if instSearch (fullTextOf r) then 3 else 0)
  + (if artifactHit (fullTextOf r) then 2 else 0)
  + (if rigorHit (fullTextOf r) then 1 else 0)
  + (if 8 ≤ r.authors.length then 2 else 0)
  + (if 4 ≤ r.authors.length ∧ r.authors.length < 8 then 1 else 0)

/- ---------------------------------------------------------------------
   Window store: load, migration (lines 130-146), normalization (156-163),
   partition and scoring of new rows (165-175), merge/prune/label/persist
   (179-182).
   --------------------------------------------------------------------- -/

def idsOf (rows : List Rec) : List String := rows.map Rec.id

/-- Keep the rows satisfying `date >= cutoff` (lines 144 and 180). -/
def cutoffKeep (cutoff : String) (rows : List Rec) : List Rec :=
  rows.filter (fun r => dateGe r.date cutoff)

/-- The value replacement of lines 139-142. -/
def migrateVal (v : String) : String :=
  if v = "Standard" then "Reputation Std."
  else if v = "High Priority" then "Reputation Enhanced"
  else v

def migrateRec (r : Rec) : Rec := { r with Reputation := migrateVal r.Reputation }

/-- The migration block of lines 134-142: rename the legacy column, then
replace the two legacy labels in the (now always present) reputation
column. -/
def migrate (t : StoredTable) : StoredTable :=
  { legacyCol := false, rows := t.rows.map migrateRec }

/-- The rows of the on-disk table, empty when no file exists. -/
def diskRows (disk : Option StoredTable) : List Rec :=
  match disk with
  | none => []
  | some t => t.rows

/-- Lines 130-146: load the table if present, migrate, prune to the cutoff. -/
def loadStore (cutoff : String) (disk : Option StoredTable) : List Rec :=
  match disk with
  | none => []
  | some t => cutoffKeep cutoff (migrate t).rows

/-- Python `s.split('/')` for the one-character separator. -/
def splitSlash : List Char → List (List Char)
  | [] => [[]]
  | c :: cs =>
    let rest := splitSlash cs
    if c == '/' then [] :: rest
    else
      match rest with
      | [] => [[c]]
      | g :: gs => (c :: g) :: gs

/-- `r.entry_id.split('/')[-1]` (line 157); `splitSlash` never returns an
empty list, so the default is never used. -/
def lastSegment (s : String) : String :=
  String.mk ((splitSlash s.data).getLastD [])

/-- One row of `all_fetched` (lines 156-163).  The `tldr`, `Reputation` and
`label` columns do not exist yet; they are modelled as empty strings and are
assigned later in the pipeline. -/
def normalizeRec (r : Raw) : Rec :=
  { id := lastSegment r.entry_id,
    title := r.title,
    text := r.title ++ ". " ++ r.summary,
    url := r.pdf_url,
    date := r.published,
    authors := r.authors,
    tldr := "", Reputation := "", label := "" }

def mkFetched (results : List Raw) : List Rec := results.map normalizeRec

/-- Lines 165-168: fetched rows whose id is absent from the loaded store
(the guard avoids indexing the `id` column of an empty frame). -/
def new_data (db all_fetched : List Rec) : List Rec :=
  if db.isEmpty then all_fetched
  else all_fetched.filter (fun r => !(decide (r.id ∈ idsOf db)))

/-- Lines 171-172: assign the generated summary and the computed reputation
on a new row.  The summarizer is an external model; it is abstracted as the
function argument `tg`. -/
def scoreRec (tg : Rec → String) (r : Rec) : Rec :=
  { r with tldr := tg r, Reputation := calculate_reputation r }

def scoreNew (tg : Rec → String) (nd : List Rec) : List Rec := nd.map (scoreRec tg)

/-- Lines 155-177: the `combined_df` reaching line 179. -/
def combinedOf (tg : Rec → String) (db : List Rec) (results : List Raw) : List Rec :=
  if results.isEmpty then db
  else
    let all_fetched := mkFetched results
    let nd := new_data db all_fetched
    if nd.isEmpty then db else db ++ scoreNew tg nd

/-- `drop_duplicates(subset=['id'], keep='last')` (line 179): a row survives
iff no later row carries the same id; surviving rows keep their order. -/
def dedupKeepLast : List Rec → List Rec
  | [] => []
  | r :: rs => if r.id ∈ idsOf rs then dedupKeepLast rs else r :: dedupKeepLast rs

/-- The merge step of the orchestrator: concatenation (line 173) followed by
id-deduplication keeping the last occurrence (line 179). -/
def mergeStep (S B : List Rec) : List Rec := dedupKeepLast (S ++ B)

/-- Line 181: `combined_df['label'] = combined_df['title']`. -/
def labelRec (r : Rec) : Rec := { r with label := r.title }

/-- Lines 179-181: dedup by id keeping last, prune to the cutoff, set the
label column. -/
def finalize (cutoff : String) (combined : List Rec) : List Rec :=
  (cutoffKeep cutoff (dedupKeepLast combined)).map labelRec

/-- The effect of the main block (lines 126-191) on the persisted table,
given the already-fetched results: when the fetch is empty and the pruned
store is empty the script only writes a placeholder HTML page and the
parquet file is left untouched; otherwise the finalized table is written
(with the current `Reputation` column name). -/
def runCycleDisk (tg : Rec → String) (cutoff : String)
    (disk : Option StoredTable) (results : List Raw) : Option StoredTable :=
  let db := loadStore cutoff disk
  if results.isEmpty && db.isEmpty then disk
  else some { legacyCol := false, rows := finalize cutoff (combinedOf tg db results) }

/- ---------------------------------------------------------------------
   Backoff fetcher (fetch_results_with_retry, lines 51-57).
   --------------------------------------------------------------------- -/

/-- What attempt number `i` of `client.results(search)` does: return a
result list, raise an exception whose text contains "429", or raise any
other exception. -/
inductive FetchOutcome where
  | success (rs : List Raw)
  | rateLimit
  | hardError
deriving DecidableEq

/-- How the call to `fetch_results_with_retry` ends: a returned list, the
re-raised non-rate-limit exception (line 56), or the final
`Exception("Max retries exceeded")` of line 57. -/
inductive FetchResult where
  | ok (rs : List Raw)
  | raisedHard
  | retriesExhausted
deriving DecidableEq

/-- Observable behaviour of one call: its result, the argument of each
`time.sleep` in order, and how many attempts were started. -/
structure FetchRun where
  result : FetchResult
  sleeps : List Nat
  attempts : Nat
deriving DecidableEq

/-- The loop of lines 52-56: `i` is the current 0-based attempt index,
the second argument the number of loop iterations remaining; a rate-limited
attempt `i` sleeps `(i + 1) * 30` seconds and retries. -/
def fetch_go (outcomes : Nat → FetchOutcome) : Nat → Nat → FetchRun
  | _, 0 => { result := .retriesExhausted, sleeps := [], attempts := 0 }
  | i, n + 1 =>
    match outcomes i with
    | .success rs => { result := .ok rs, sleeps := [], attempts := 1 }
    | .hardError => { result := .raisedHard, sleeps := [], attempts := 1 }
    | .rateLimit =>
      let rest := fetch_go outcomes (i + 1) n
      { result := rest.result, sleeps := (i + 1) * 30 :: rest.sleeps,
        attempts := rest.attempts + 1 }

/-- `fetch_results_with_retry(client, search, max_retries=5)`. -/
def fetch_results_with_retry (outcomes : Nat → FetchOutcome)
    (max_retries : Nat := 5) : FetchRun :=
  fetch_go outcomes 0 max_retries

/- ---------------------------------------------------------------------
   Whole script run and the shape of the persist step.
   --------------------------------------------------------------------- -/

/-- Reasons the script dies before reaching the persist of line 182. -/
inductive ScriptErr where
  | fetchHardError
  | fetchRetriesExhausted
deriving DecidableEq

/-- The whole main block: fetch with retry (the script's call site uses the
default of 5 attempts), then run the merge/prune/persist pipeline; a raised
exception aborts the process before anything is written. -/
def runScript (tg : Rec → String) (cutoff : String) (disk : Option StoredTable)
    (outcomes : Nat → FetchOutcome) : Option StoredTable × Option ScriptErr :=
  match (fetch_results_with_retry outcomes 5).result with
  | .ok rs => (runCycleDisk tg cutoff disk rs, none)
  | .raisedHard => (disk, some .fetchHardError)
  | .retriesExhausted => (disk, some .fetchRetriesExhausted)

/-- File-system operations relevant to persisting. -/
inductive FsOp where
  | write (path : String)
  | rename (src dst : String)
deriving DecidableEq

/-- The persist step, line 182: `combined_df.to_parquet(DB_PATH)` — one
direct write to the destination path. -/
def persistOps : List FsOp := [FsOp.write DB_PATH]

/-- Modelled from the spec: spec.md section 4.4 requires `persist` to write
to a temporary location and then rename/swap it over the destination; no
such procedure exists in the source. -/
def isAtomicReplace (ops : List FsOp) (dst : String) : Prop :=
  ∃ tmp, tmp ≠ dst ∧ ops = [FsOp.write tmp, FsOp.rename tmp dst]

/- ---------------------------------------------------------------------
   Concrete inputs used by scenario conjuncts, counterexamples and
   witnesses.
   --------------------------------------------------------------------- -/

/-- The scenario record of the claim: 9 authors and an institution mention. -/
def b2Row : Rec :=
  { id := "B2", title := "B2", text := "a new result from MIT",
    url := "u", date := "2026-10-10",
    authors := ["a", "b", "c", "d", "e", "f", "g", "h", "i"],
    tldr := "", Reputation := "", label := "" }

/-- A record whose text contains the artifact keyword only inside the longer
word `open-sourced`. -/
def osRow : Rec :=
  { id := "O1", title := "Demo", text := "it is open-sourced",
    url := "u", date := "2026-10-10", authors := [],
    tldr := "", Reputation := "", label := "" }

/-- A stored record published long before any recent cutoff. -/
def staleRec : Rec :=
  { id := "s1", title := "Old", text := "old", url := "u",
    date := "2020-01-01", authors := [], tldr := "",
    Reputation := "Reputation Std.", label := "Old" }

/-- A raw record with an empty permanent URI. -/
def rawEmptyUri : Raw :=
  { entry_id := "", title := "t", summary := "s", pdf_url := "u",
    published := "2026-10-10", authors := ["x"] }

/-- A fresh stored record for witnesses. -/
def recK : Rec :=
  { id := "k1", title := "Known", text := "known", url := "u",
    date := "2026-10-09", authors := [], tldr := "old summary",
    Reputation := "Reputation Std.", label := "Known" }

/-- A raw record normalizing to the already-known id `k1`. -/
def rawSame : Raw :=
  { entry_id := "http://arxiv.org/abs/k1", title := "Known v2",
    summary := "revised", pdf_url := "u2", published := "2026-10-09",
    authors := ["x"] }

/-- A raw record normalizing to the new id `k2`. -/
def rawNew : Raw :=
  { entry_id := "http://arxiv.org/abs/k2", title := "New paper",
    summary := "fresh", pdf_url := "u3", published := "2026-10-10",
    authors := ["x", "y"] }

/-- A trivial summarizer stand-in for closed statements. -/
def tgW : Rec → String := fun _ => ""

/-- Two rows sharing an id, for the merge witness. -/
def recS0 : Rec :=
  { id := "x", title := "old title", text := "o", url := "u",
    date := "2026-10-08", authors := [], tldr := "",
    Reputation := "Reputation Std.", label := "old title" }

def recB0 : Rec :=
  { id := "x", title := "new title", text := "n", url := "u",
    date := "2026-10-08", authors := [], tldr := "",
    Reputation := "Reputation Std.", label := "new title" }

/-- A legacy table for the migration witness. -/
def tLegacy : StoredTable :=
  { legacyCol := true,
    rows := [{ id := "m1", title := "M", text := "m", url := "u",
               date := "2026-10-09", authors := [], tldr := "",
               Reputation := "High Priority", label := "M" }] }

/- ---------------------------------------------------------------------
   Helper lemmas.
   --------------------------------------------------------------------- -/

@[simp]
theorem idsOf_nil : idsOf [] = [] := rfl

@[simp]
theorem idsOf_cons (r : Rec) (rs : List Rec) : idsOf (r :: rs) = r.id :: idsOf rs := rfl

@[simp]
theorem idsOf_append (a b : List Rec) : idsOf (a ++ b) = idsOf a ++ idsOf b :=
  List.map_append _ _ _

theorem idsOf_map (f : Rec → Rec) (h : ∀ r, (f r).id = r.id) (l : List Rec) :
    idsOf (l.map f) = idsOf l := by
  unfold idsOf
  rw [List.map_map]
  exact List.map_congr_left (fun a _ => h a)

@[simp] theorem scoreRec_id (tg : Rec → String) (r : Rec) : (scoreRec tg r).id = r.id := rfl

@[simp] theorem scoreRec_date (tg : Rec → String) (r : Rec) : (scoreRec tg r).date = r.date := rfl

@[simp] theorem labelRec_id (r : Rec) : (labelRec r).id = r.id := rfl

@[simp] theorem labelRec_date (r : Rec) : (labelRec r).date = r.date := rfl

@[simp] theorem labelRec_rep (r : Rec) : (labelRec r).Reputation = r.Reputation := rfl

@[simp] theorem migrateRec_id (r : Rec) : (migrateRec r).id = r.id := rfl

@[simp] theorem migrateRec_date (r : Rec) : (migrateRec r).date = r.date := rfl

@[simp]
theorem migrateRec_rep (r : Rec) : (migrateRec r).Reputation = migrateVal r.Reputation := rfl

@[simp]
theorem dedupKeepLast_nil : dedupKeepLast [] = [] := rfl

theorem dedupKeepLast_cons (r : Rec) (rs : List Rec) :
    dedupKeepLast (r :: rs) =
      if r.id ∈ idsOf rs then dedupKeepLast rs else r :: dedupKeepLast rs := rfl

theorem dedup_mem_ids (l : List Rec) (i : String) :
    i ∈ idsOf (dedupKeepLast l) ↔ i ∈ idsOf l := by
  induction l with
  | nil => simp
  | cons r rs ih =>
    rw [dedupKeepLast_cons]
    by_cases h : r.id ∈ idsOf rs
    · rw [if_pos h]
      simp only [idsOf_cons, List.mem_cons, ih]
      constructor
      · exact fun hi => Or.inr hi
      · rintro (rfl | hi)
        · exact h
        · exact hi
    · rw [if_neg h]
      simp [List.mem_cons, ih]

theorem dedup_subset {l : List Rec} {r : Rec} (h : r ∈ dedupKeepLast l) : r ∈ l := by
  induction l with
  | nil => simp at h
  | cons a rs ih =>
    rw [dedupKeepLast_cons] at h
    by_cases hc : a.id ∈ idsOf rs
    · rw [if_pos hc] at h
      exact List.mem_cons_of_mem _ (ih h)
    · rw [if_neg hc] at h
      rcases List.mem_cons.mp h with rfl | h
      · exact List.mem_cons_self _ _
      · exact List.mem_cons_of_mem _ (ih h)

theorem dedup_ids_nodup (l : List Rec) : (idsOf (dedupKeepLast l)).Nodup := by
  induction l with
  | nil => simp
  | cons r rs ih =>
    rw [dedupKeepLast_cons]
    by_cases h : r.id ∈ idsOf rs
    · rw [if_pos h]; exact ih
    · rw [if_neg h]
      simp only [idsOf_cons, List.nodup_cons]
      exact ⟨fun hmem => h ((dedup_mem_ids rs r.id).mp hmem), ih⟩

theorem dedup_eq_self {l : List Rec} (h : (idsOf l).Nodup) : dedupKeepLast l = l := by
  induction l with
  | nil => rfl
  | cons r rs ih =>
    rw [dedupKeepLast_cons]
    simp only [idsOf_cons, List.nodup_cons] at h
    rw [if_neg h.1, ih h.2]

theorem dedup_append {S B : List Rec} (hS : (idsOf S).Nodup) (hB : (idsOf B).Nodup) :
    dedupKeepLast (S ++ B) = S.filter (fun s => !(decide (s.id ∈ idsOf B))) ++ B := by
  induction S with
  | nil => simpa using dedup_eq_self hB
  | cons s S ih =>
    simp only [idsOf_cons, List.nodup_cons] at hS
    rw [List.cons_append, dedupKeepLast_cons, List.filter_cons]
    by_cases h : s.id ∈ idsOf B
    · rw [if_pos (by simp [h]), ih hS.2]
      simp [h]
    · have hnot : s.id ∉ idsOf (S ++ B) := by
        simp only [idsOf_append, List.mem_append]
        rintro (hc | hc)
        · exact hS.1 hc
        · exact h hc
      rw [if_neg hnot, ih hS.2]
      simp [h]

/-- A row that is the last occurrence of its id survives keep-last
deduplication: it is in the deduplicated list whenever the rows before it
carry its id only once and no later row carries it. -/
theorem dedup_mem_of_last {l1 l2 : List Rec} {s : Rec} (hs : s ∈ l1)
    (hnd : (idsOf l1).Nodup) (hdisj : s.id ∉ idsOf l2) :
    s ∈ dedupKeepLast (l1 ++ l2) := by
  induction l1 with
  | nil => simp at hs
  | cons a l1 ih =>
    simp only [idsOf_cons, List.nodup_cons] at hnd
    rw [List.cons_append, dedupKeepLast_cons]
    rcases List.mem_cons.mp hs with rfl | hs'
    · have hnot : s.id ∉ idsOf (l1 ++ l2) := by
        simp only [idsOf_append, List.mem_append]
        rintro (hc | hc)
        · exact hnd.1 hc
        · exact hdisj hc
      rw [if_neg hnot]
      exact List.mem_cons_self _ _
    · have hmem : s ∈ dedupKeepLast (l1 ++ l2) := ih hs' hnd.2
      by_cases hc : a.id ∈ idsOf (l1 ++ l2)
      · rw [if_pos hc]; exact hmem
      · rw [if_neg hc]; exact List.mem_cons_of_mem _ hmem

theorem new_data_eq_filter (db af : List Rec) :
    new_data db af = af.filter (fun r => !(decide (r.id ∈ idsOf db))) := by
  cases db with
  | nil => simp [new_data]
  | cons a db => rfl

theorem labelRec_eq_self {r : Rec} (h : r.label = r.title) : labelRec r = r := by
  cases r
  simp_all [labelRec]

theorem labelRec_idem (r : Rec) : labelRec (labelRec r) = labelRec r := by
  cases r
  rfl

theorem migrateRec_eq_self {r : Rec} (h : migrateVal r.Reputation = r.Reputation) :
    migrateRec r = r := by
  cases r
  simp_all [migrateRec]

theorem migrateVal_not_legacy (v : String) :
    migrateVal v ≠ "Standard" ∧ migrateVal v ≠ "High Priority" := by
  unfold migrateVal
  by_cases h1 : v = "Standard"
  · rw [if_pos h1]
    exact ⟨by decide, by decide⟩
  · rw [if_neg h1]
    by_cases h2 : v = "High Priority"
    · rw [if_pos h2]
      exact ⟨by decide, by decide⟩
    · rw [if_neg h2]
      exact ⟨h1, h2⟩

theorem calc_rep_cases (r : Rec) :
    calculate_reputation r = "Reputation Enhanced" ∨
      calculate_reputation r = "Reputation Std." := by
  unfold calculate_reputation
  by_cases h : 4 ≤ reputation_score r
  · exact Or.inl (if_pos h)
  · exact Or.inr (if_neg h)

theorem calc_rep_not_legacy (r : Rec) :
    calculate_reputation r ≠ "Standard" ∧ calculate_reputation r ≠ "High Priority" := by
  rcases calc_rep_cases r with h | h <;> rw [h] <;> exact ⟨by decide, by decide⟩

theorem cutoffKeep_mem {cutoff : String} {l : List Rec} {r : Rec} :
    r ∈ cutoffKeep cutoff l ↔ r ∈ l ∧ dateGe r.date cutoff = true :=
  List.mem_filter

theorem cutoffKeep_eq_self {cutoff : String} {l : List Rec}
    (h : ∀ r ∈ l, dateGe r.date cutoff = true) : cutoffKeep cutoff l = l :=
  List.filter_eq_self.mpr h

theorem cutoffKeep_nodup {cutoff : String} {l : List Rec} (h : (idsOf l).Nodup) :
    (idsOf (cutoffKeep cutoff l)).Nodup :=
  (((List.filter_sublist l).map Rec.id).nodup h : _)

theorem finalize_dates {cutoff : String} {c : List Rec} {r : Rec}
    (h : r ∈ finalize cutoff c) : dateGe r.date cutoff = true := by
  unfold finalize at h
  rcases List.mem_map.mp h with ⟨r0, hr0, rfl⟩
  have hd := (List.mem_filter.mp hr0).2
  simpa using hd

theorem finalize_nodup (cutoff : String) (c : List Rec) :
    (idsOf (finalize cutoff c)).Nodup := by
  unfold finalize
  rw [idsOf_map labelRec labelRec_id]
  exact cutoffKeep_nodup (dedup_ids_nodup c)

theorem finalize_label {cutoff : String} {c : List Rec} {r : Rec}
    (h : r ∈ finalize cutoff c) : r.label = r.title := by
  rcases List.mem_map.mp h with ⟨r0, _, rfl⟩
  rfl

theorem finalize_sub {cutoff : String} {c : List Rec} {r : Rec}
    (h : r ∈ finalize cutoff c) : ∃ r0 ∈ c, r = labelRec r0 := by
  rcases List.mem_map.mp h with ⟨r0, hr0, rfl⟩
  exact ⟨r0, dedup_subset (List.mem_filter.mp hr0).1, rfl⟩

theorem combinedOf_sub {tg : Rec → String} {db : List Rec} {results : List Raw} {r : Rec}
    (h : r ∈ combinedOf tg db results) :
    r ∈ db ∨ ∃ r1 ∈ new_data db (mkFetched results), r = scoreRec tg r1 := by
  unfold combinedOf at h
  by_cases hres : results.isEmpty
  · rw [if_pos hres] at h
    exact Or.inl h
  · rw [if_neg hres] at h
    by_cases hnd : (new_data db (mkFetched results)).isEmpty
    · rw [if_pos hnd] at h
      exact Or.inl h
    · rw [if_neg hnd] at h
      rcases List.mem_append.mp h with h | h
      · exact Or.inl h
      · rcases List.mem_map.mp h with ⟨r1, hr1, rfl⟩
        exact Or.inr ⟨r1, hr1, rfl⟩

theorem combinedOf_superset_db {tg : Rec → String} {db : List Rec} {results : List Raw}
    {s : Rec} (h : s ∈ db) : s ∈ combinedOf tg db results := by
  unfold combinedOf
  by_cases hres : results.isEmpty
  · rwa [if_pos hres]
  · rw [if_neg hres]
    by_cases hnd : (new_data db (mkFetched results)).isEmpty
    · rwa [if_pos hnd]
    · rw [if_neg hnd]
      exact List.mem_append_left _ h

theorem loadStore_sub {cutoff : String} {disk : Option StoredTable} {r : Rec}
    (h : r ∈ loadStore cutoff disk) :
    ∃ r0 ∈ diskRows disk, r = migrateRec r0 ∧ dateGe r.date cutoff = true := by
  cases disk with
  | none => simp [loadStore] at h
  | some t =>
    rcases List.mem_filter.mp h with ⟨hmem, hd⟩
    rcases List.mem_map.mp hmem with ⟨r0, hr0, rfl⟩
    exact ⟨r0, hr0, rfl, hd⟩

theorem loadStore_dates {cutoff : String} {disk : Option StoredTable} {r : Rec}
    (h : r ∈ loadStore cutoff disk) : dateGe r.date cutoff = true := by
  rcases loadStore_sub h with ⟨_, _, _, hd⟩
  exact hd

theorem loadStore_nodup {cutoff : String} {disk : Option StoredTable}
    (h : (idsOf (diskRows disk)).Nodup) : (idsOf (loadStore cutoff disk)).Nodup := by
  cases disk with
  | none => simp [loadStore]
  | some t =>
    unfold loadStore
    apply cutoffKeep_nodup
    rw [show (migrate t).rows = t.rows.map migrateRec from rfl,
      idsOf_map migrateRec migrateRec_id]
    exact h

theorem loadStore_mem_of {cutoff : String} {t : StoredTable} {r0 : Rec}
    (h : r0 ∈ t.rows) (hd : dateGe r0.date cutoff = true) :
    migrateRec r0 ∈ loadStore cutoff (some t) := by
  unfold loadStore
  exact List.mem_filter.mpr ⟨List.mem_map.mpr ⟨r0, h, rfl⟩, by simpa using hd⟩

theorem new_data_not_in_db {db af : List Rec} {r : Rec} (h : r ∈ new_data db af) :
    r ∈ af ∧ r.id ∉ idsOf db := by
  rw [new_data_eq_filter] at h
  rcases List.mem_filter.mp h with ⟨hmem, hp⟩
  simp only [Bool.not_eq_true', decide_eq_false_iff_not] at hp
  exact ⟨hmem, hp⟩

theorem new_data_mem_of {db af : List Rec} {r : Rec} (h : r ∈ af)
    (hid : r.id ∉ idsOf db) : r ∈ new_data db af := by
  rw [new_data_eq_filter]
  exact List.mem_filter.mpr ⟨h, by simpa using hid⟩

/- ---------------------------------------------------------------------
   Scoring equivalences (C3, C10).
   --------------------------------------------------------------------- -/

theorem reputation_score_eq_specScore (r : Rec) : reputation_score r = specScore r := by
  simp only [reputation_score, specScore]
  split_ifs <;> omega

/-- C3: for every record the accumulated reputation score equals the sum of
the five contributions of the claim (+3 institution, +2 artifact keyword,
+1 rigor keyword, +2 for at least 8 authors, +1 for 4-7 authors), and the
label is Enhanced exactly when the total reaches 4; the scenario record with
nine authors and an MIT mention scores 3 + 2 = 5 and is Enhanced. -/
theorem c3_scoring :
    (∀ r : Rec, reputation_score r = specScore r)
    ∧ (∀ r : Rec, calculate_reputation r =
        if 4 ≤ specScore r then "Reputation Enhanced" else "Reputation Std.")
    ∧ specScore b2Row = 5
    ∧ calculate_reputation b2Row = "Reputation Enhanced" := by
  refine ⟨reputation_score_eq_specScore, fun r => ?_, by decide, by decide⟩
  unfold calculate_reputation
  rw [reputation_score_eq_specScore]

/-- C10: the artifact-availability and rigor keyword checks are raw
substring containment on the lowered combined text, so a keyword embedded in
a longer word still scores: the text `it is open-sourced` contains the
keyword `open-source` as a substring but not as a whole word, and its record
is still awarded the +2 (its total is 2, from the artifact bonus alone). -/
theorem c10_substring_keywords :
    (∀ (r : Rec) (k : String), k ∈ artifactKeywords →
        substrOccurs k.data (fullTextOf r) = true → artifactHit (fullTextOf r) = true)
    ∧ (∀ (r : Rec) (k : String), k ∈ rigor_keys →
        substrOccurs k.data (fullTextOf r) = true → rigorHit (fullTextOf r) = true)
    ∧ substrOccurs ("open-source".data) (fullTextOf osRow) = true
    ∧ wordOccurs (lowerData "open-source") (fullTextOf osRow) = false
    ∧ reputation_score osRow = 2
    ∧ calculate_reputation osRow = "Reputation Std." := by
  refine ⟨?_, ?_, by decide, by decide, by decide, by decide⟩
  · intro r k hk hs
    exact List.any_eq_true.mpr ⟨k, hk, hs⟩
  · intro r k hk hs
    exact List.any_eq_true.mpr ⟨k, hk, hs⟩

/-- Apply the substring lemma of C10 at the concrete embedded-keyword record. -/
theorem c10_substring_witness : artifactHit (fullTextOf osRow) = true :=
  c10_substring_keywords.1 osRow "open-source" (by decide) (by decide)

/- ---------------------------------------------------------------------
   C1: the merge step.
   --------------------------------------------------------------------- -/

/-- C1: for stores with per-table unique ids, the merge step (concat then
drop-duplicates keeping the last occurrence) keeps every id of `S ∪ B`
exactly once, and on an id collision the row of `B` is the one kept: the
result is exactly the non-colliding part of `S` followed by all of `B`. -/
theorem c1_merge_step (S B : List Rec) (hS : (idsOf S).Nodup) (hB : (idsOf B).Nodup) :
    mergeStep S B = S.filter (fun s => !(decide (s.id ∈ idsOf B))) ++ B
    ∧ (idsOf (mergeStep S B)).Nodup
    ∧ ∀ i, i ∈ idsOf (mergeStep S B) ↔ i ∈ idsOf S ∨ i ∈ idsOf B := by
  refine ⟨dedup_append hS hB, dedup_ids_nodup _, fun i => ?_⟩
  rw [show mergeStep S B = dedupKeepLast (S ++ B) from rfl, dedup_mem_ids,
    idsOf_append, List.mem_append]

/-- Merging two one-row tables with the same id keeps exactly the incoming
row. -/
theorem c1_merge_step_witness : mergeStep [recS0] [recB0] = [recB0] := by
  have h := c1_merge_step [recS0] [recB0] (by decide) (by decide)
  exact h.1.trans (by decide)

/- ---------------------------------------------------------------------
   C5: the retry loop.
   --------------------------------------------------------------------- -/

theorem fetch_go_attempts (o : Nat → FetchOutcome) (n i : Nat) :
    (fetch_go o i n).attempts ≤ n := by
  induction n generalizing i with
  | zero => exact Nat.le_refl 0
  | succ n ih =>
    cases h : o i with
    | success rs => simp [fetch_go, h]
    | hardError => simp [fetch_go, h]
    | rateLimit =>
      simp only [fetch_go, h]
      exact Nat.succ_le_succ (ih (i + 1))

theorem fetch_go_sleeps_lb (o : Nat → FetchOutcome) (n : Nat) :
    ∀ i x, x ∈ (fetch_go o i n).sleeps → (i + 1) * 30 ≤ x := by
  induction n with
  | zero => intro i x hx; simp [fetch_go] at hx
  | succ n ih =>
    intro i x hx
    cases h : o i with
    | success rs => simp [fetch_go, h] at hx
    | hardError => simp [fetch_go, h] at hx
    | rateLimit =>
      simp only [fetch_go, h, List.mem_cons] at hx
      rcases hx with rfl | hx
      · exact Nat.le_refl _
      · have := ih (i + 1) x hx
        omega

theorem fetch_go_sleeps_chain (o : Nat → FetchOutcome) (n : Nat) :
    ∀ i, List.Chain' (· < ·) ((fetch_go o i n).sleeps) := by
  induction n with
  | zero => intro i; simp [fetch_go]
  | succ n ih =>
    intro i
    cases h : o i with
    | success rs => simp [fetch_go, h]
    | hardError => simp [fetch_go, h]
    | rateLimit =>
      simp only [fetch_go, h]
      refine List.chain'_cons'.mpr ⟨fun y hy => ?_, ih (i + 1)⟩
      have hmem : y ∈ (fetch_go o (i + 1) n).sleeps := List.mem_of_mem_head? hy
      have := fetch_go_sleeps_lb o n (i + 1) y hmem
      omega

theorem fetch_go_all_rl (o : Nat → FetchOutcome) (h : ∀ j, o j = .rateLimit)
    (n : Nat) : ∀ i, (fetch_go o i n).result = .retriesExhausted := by
  induction n with
  | zero => intro i; rfl
  | succ n ih =>
    intro i
    simp only [fetch_go, h i]
    exact ih (i + 1)

/-- C5: the fetcher starts at most `max_retries` attempts (the script's call
site uses the default of 5), each rate-limited attempt sleeps `(i+1)*30`
seconds so the successive waits strictly increase, and when every attempt is
rate-limited the call ends by raising the max-retries-exceeded error. -/
theorem c5_retry_policy (outcomes : Nat → FetchOutcome) (n : Nat) :
    (fetch_results_with_retry outcomes n).attempts ≤ n
    ∧ List.Chain' (· < ·) ((fetch_results_with_retry outcomes n).sleeps)
    ∧ ((∀ j, outcomes j = .rateLimit) →
        (fetch_results_with_retry outcomes n).result = .retriesExhausted) :=
  ⟨fetch_go_attempts _ _ _, fetch_go_sleeps_chain _ _ _,
    fun h => fetch_go_all_rl _ h _ _⟩

/-- A permanently rate-limited provider exhausts the 5 default attempts,
with sleeps 30, 60, 90, 120, 150. -/
theorem c5_retry_witness :
    (fetch_results_with_retry (fun _ => .rateLimit) 5).result = .retriesExhausted
    ∧ (fetch_results_with_retry (fun _ => .rateLimit) 5).sleeps =
        [30, 60, 90, 120, 150] :=
  ⟨(c5_retry_policy (fun _ => .rateLimit) 5).2.2 (fun _ => rfl), by decide⟩

/- ---------------------------------------------------------------------
   C6: normalization never fails and never drops a record.
   --------------------------------------------------------------------- -/

/-- C6 fails on the code: normalizing a batch holding a record with an empty
permanent URI raises no error and drops nothing — the record is kept, with
an empty id (`''.split('/')[-1]` is `''`). -/
theorem c6_empty_uri_counterexample :
    mkFetched [rawEmptyUri] = [normalizeRec rawEmptyUri]
    ∧ (mkFetched [rawEmptyUri]).length = 1
    ∧ (normalizeRec rawEmptyUri).id = "" :=
  ⟨rfl, rfl, by decide⟩

/-- C6 amended: normalization is total — the id is the last '/'-delimited
segment of the permanent URI (the empty string when the URI is empty), no
record is ever dropped, and the batch maps one-to-one. -/
theorem c6_normalize_total (raws : List Raw) :
    (mkFetched raws).length = raws.length
    ∧ idsOf (mkFetched raws) = raws.map (fun r => lastSegment r.entry_id) := by
  constructor
  · simp [mkFetched]
  · unfold mkFetched idsOf
    rw [List.map_map]
    rfl

/- ---------------------------------------------------------------------
   C4: aborts leave the table untouched, but persist is not atomic.
   --------------------------------------------------------------------- -/

/-- C4 fails on the code: the persist step is a single direct
`to_parquet(DB_PATH)` write, not a write-to-temporary-then-rename atomic
replace. -/
theorem c4_not_atomic_counterexample : ¬ isAtomicReplace persistOps DB_PATH := by
  rintro ⟨tmp, hne, heq⟩
  have hlen := congrArg List.length heq
  simp [persistOps] at hlen

/-- C4 amended: a run whose fetch raises (a non-rate-limit error, or rate
limiting on all five attempts) aborts before the persist step and leaves the
on-disk table at its pre-run value; the persist step itself is one direct
write to the database path, with no temporary file and no rename. -/
theorem c4_abort_amended (tg : Rec → String) (cutoff : String)
    (disk : Option StoredTable) (outcomes : Nat → FetchOutcome)
    (h : (fetch_results_with_retry outcomes 5).result = .raisedHard ∨
         (fetch_results_with_retry outcomes 5).result = .retriesExhausted) :
    (runScript tg cutoff disk outcomes).1 = disk
    ∧ (runScript tg cutoff disk outcomes).2 ≠ none
    ∧ persistOps = [FsOp.write DB_PATH] := by
  unfold runScript
  rcases h with h | h <;> rw [h] <;> exact ⟨rfl, by simp, rfl⟩

/-- A provider failing hard on the first attempt leaves the stored table
unchanged. -/
theorem c4_abort_witness :
    (runScript tgW "2026-10-07" (some { legacyCol := false, rows := [staleRec] })
      (fun _ => .hardError)).1 = some { legacyCol := false, rows := [staleRec] } :=
  (c4_abort_amended tgW "2026-10-07" (some { legacyCol := false, rows := [staleRec] })
    (fun _ => .hardError) (Or.inl rfl)).1

/- ---------------------------------------------------------------------
   C9: the load-time migration.
   --------------------------------------------------------------------- -/

/-- C9: loading an existing table renames the legacy `Paper_Priority` column
to `Reputation` and rewrites the legacy labels `Standard` and
`High Priority` to `Reputation Std.` and `Reputation Enhanced`; for any
table whose reputation values are among the labels this program or its
predecessor ever wrote (the two legacy and the two current ones), every
value after load is one of the two current labels. -/
theorem c9_migration (t : StoredTable)
    (h : ∀ r ∈ t.rows, r.Reputation = "Standard" ∨ r.Reputation = "High Priority" ∨
         r.Reputation = "Reputation Std." ∨ r.Reputation = "Reputation Enhanced") :
    (migrate t).legacyCol = false
    ∧ (migrate t).rows = t.rows.map migrateRec
    ∧ migrateVal "Standard" = "Reputation Std."
    ∧ migrateVal "High Priority" = "Reputation Enhanced"
    ∧ ∀ r ∈ (migrate t).rows,
        r.Reputation = "Reputation Std." ∨ r.Reputation = "Reputation Enhanced" := by
  refine ⟨rfl, rfl, by decide, by decide, ?_⟩
  intro r hr
  rcases List.mem_map.mp hr with ⟨r0, hr0, rfl⟩
  rw [migrateRec_rep]
  rcases h r0 hr0 with h0 | h0 | h0 | h0 <;> rw [h0] <;> decide

/-- Migrating a concrete legacy table yields the current column name. -/
theorem c9_migration_witness : (migrate tLegacy).legacyCol = false :=
  (c9_migration tLegacy (by decide)).1

/- ---------------------------------------------------------------------
   More migration/merge helpers (C2, C7, C8).
   --------------------------------------------------------------------- -/

theorem scoreNew_eq (tg : Rec → String) (nd : List Rec) :
    scoreNew tg nd = nd.map (scoreRec tg) := rfl

theorem migrateVal_fix {v : String} (h1 : v ≠ "Standard") (h2 : v ≠ "High Priority") :
    migrateVal v = v := by
  unfold migrateVal
  rw [if_neg h1, if_neg h2]

theorem migrateVal_idem (v : String) : migrateVal (migrateVal v) = migrateVal v :=
  migrateVal_fix (migrateVal_not_legacy v).1 (migrateVal_not_legacy v).2

theorem mem_ids_cutoffKeep {cutoff : String} {l : List Rec} {i : String} :
    i ∈ idsOf (cutoffKeep cutoff l) ↔
      ∃ r ∈ l, r.id = i ∧ dateGe r.date cutoff = true := by
  constructor
  · intro h
    rcases List.mem_map.mp h with ⟨r, hr, rfl⟩
    rcases List.mem_filter.mp hr with ⟨h1, h2⟩
    exact ⟨r, h1, rfl, h2⟩
  · rintro ⟨r, hr, rfl, hd⟩
    exact List.mem_map.mpr ⟨r, List.mem_filter.mpr ⟨hr, hd⟩, rfl⟩

theorem combinedOf_mem_scored {tg : Rec → String} {db : List Rec} {results : List Raw}
    {r1 : Rec} (h1 : r1 ∈ new_data db (mkFetched results)) :
    scoreRec tg r1 ∈ combinedOf tg db results := by
  have hafmem : r1 ∈ mkFetched results := (new_data_not_in_db h1).1
  have hresne : results ≠ [] := by
    intro he
    rw [he] at hafmem
    simp [mkFetched] at hafmem
  have hndne : new_data db (mkFetched results) ≠ [] := List.ne_nil_of_mem h1
  unfold combinedOf
  rw [if_neg (fun hc => hresne (List.isEmpty_iff.mp hc)),
    if_neg (fun hc => hndne (List.isEmpty_iff.mp hc))]
  exact List.mem_append_right _ (List.mem_map_of_mem _ h1)

theorem new_data_ids_nodup {db : List Rec} {results : List Raw}
    (hf : (idsOf (mkFetched results)).Nodup) :
    (idsOf (new_data db (mkFetched results))).Nodup := by
  rw [new_data_eq_filter]
  exact (((List.filter_sublist _).map Rec.id).nodup hf : _)

theorem combinedOf_nodup (tg : Rec → String) (db : List Rec) (results : List Raw)
    (hdb : (idsOf db).Nodup) (hf : (idsOf (mkFetched results)).Nodup) :
    (idsOf (combinedOf tg db results)).Nodup := by
  unfold combinedOf
  by_cases hres : results.isEmpty = true
  · rwa [if_pos hres]
  · rw [if_neg hres]
    by_cases hnd : (new_data db (mkFetched results)).isEmpty = true
    · rwa [if_pos hnd]
    · rw [if_neg hnd, idsOf_append]
      refine List.nodup_append.mpr ⟨hdb, ?_, ?_⟩
      · rw [scoreNew_eq, idsOf_map (scoreRec tg) (scoreRec_id tg)]
        exact new_data_ids_nodup hf
      · intro a ha hb
        rw [scoreNew_eq, idsOf_map (scoreRec tg) (scoreRec_id tg)] at hb
        rcases List.mem_map.mp hb with ⟨r1, hr1, rfl⟩
        exact (new_data_not_in_db hr1).2 ha

/- ---------------------------------------------------------------------
   C7: only new records are scored; stored records pass through unchanged.
   --------------------------------------------------------------------- -/

/-- C7: the rows handed to the reputation scorer are exactly `new_data`, and
every such row's id is absent from the loaded store; conversely, when the
loaded store has unique ids, each stored row reaches the merged
(id-deduplicated) table unchanged — with its previously stored fields,
reputation included — and is the only row of the merged table with its id. -/
theorem c7_partition_scoring (tg : Rec → String) (cutoff : String)
    (disk : Option StoredTable) (results : List Raw)
    (hnd : (idsOf (loadStore cutoff disk)).Nodup) :
    (∀ r ∈ new_data (loadStore cutoff disk) (mkFetched results),
        r.id ∉ idsOf (loadStore cutoff disk))
    ∧ ∀ s ∈ loadStore cutoff disk,
        s ∈ dedupKeepLast (combinedOf tg (loadStore cutoff disk) results)
        ∧ ∀ r ∈ dedupKeepLast (combinedOf tg (loadStore cutoff disk) results),
            r.id = s.id → r = s := by
  refine ⟨fun r hr => (new_data_not_in_db hr).2, fun s hs => ⟨?_, ?_⟩⟩
  · unfold combinedOf
    by_cases hres : results.isEmpty = true
    · rw [if_pos hres, dedup_eq_self hnd]
      exact hs
    · rw [if_neg hres]
      by_cases hnde : (new_data (loadStore cutoff disk) (mkFetched results)).isEmpty = true
      · rw [if_pos hnde, dedup_eq_self hnd]
        exact hs
      · rw [if_neg hnde]
        refine dedup_mem_of_last hs hnd ?_
        rw [scoreNew_eq, idsOf_map (scoreRec tg) (scoreRec_id tg)]
        intro hc
        rcases List.mem_map.mp hc with ⟨r1, hr1, hid⟩
        exact (new_data_not_in_db hr1).2 (hid ▸ List.mem_map_of_mem Rec.id hs)
  · intro r hr hid
    have hrc := dedup_subset hr
    rcases combinedOf_sub hrc with h | ⟨r1, hr1, rfl⟩
    · exact List.inj_on_of_nodup_map hnd h hs hid
    · exfalso
      have : r1.id ∈ idsOf (loadStore cutoff disk) := by
        rw [show (scoreRec tg r1).id = r1.id from rfl] at hid
        exact hid ▸ List.mem_map_of_mem Rec.id hs
      exact (new_data_not_in_db hr1).2 this

/-- The stored row `recK` survives a merge against a fetch that re-delivers
its id alongside a genuinely new record. -/
theorem c7_partition_witness :
    recK ∈ dedupKeepLast (combinedOf tgW
      (loadStore "2026-10-07" (some { legacyCol := false, rows := [recK] }))
      [rawSame, rawNew]) := by
  have h := c7_partition_scoring tgW "2026-10-07"
    (some { legacyCol := false, rows := [recK] }) [rawSame, rawNew] (by decide)
  exact (h.2 recK (by decide)).1

/- ---------------------------------------------------------------------
   C2: retention after a cycle.
   --------------------------------------------------------------------- -/

/-- C2 fails on the code: when the fetch is empty and the loaded store
prunes to empty, the script takes its no-data branch and never rewrites the
parquet file, so a completed cycle leaves a record on disk whose date is
strictly before the cutoff. -/
theorem c2_stale_table_counterexample :
    runCycleDisk tgW "2026-10-07" (some { legacyCol := false, rows := [staleRec] }) []
      = some { legacyCol := false, rows := [staleRec] }
    ∧ dateGe staleRec.date "2026-10-07" = false :=
  ⟨by decide, by decide⟩

/-- C2 amended: whenever the cycle actually persists (the fetch returned
rows or the pruned loaded store is nonempty) and the stored table and the
normalized fetch each carry unique ids, the persisted table is the finalized
merge, every persisted record's date is on or after the cutoff, ids are
unique, and the persisted id set is exactly the ids of the old rows and
fetched rows whose date survives the cutoff; when both are empty the file is
left untouched and may retain stale rows. -/
theorem c2_retention_amended (tg : Rec → String) (cutoff : String)
    (disk : Option StoredTable) (results : List Raw)
    (hdisk : (idsOf (diskRows disk)).Nodup)
    (hfetch : (idsOf (mkFetched results)).Nodup)
    (hw : ¬(results = [] ∧ loadStore cutoff disk = [])) :
    runCycleDisk tg cutoff disk results =
      some { legacyCol := false,
             rows := finalize cutoff (combinedOf tg (loadStore cutoff disk) results) }
    ∧ (∀ r ∈ finalize cutoff (combinedOf tg (loadStore cutoff disk) results),
        dateGe r.date cutoff = true)
    ∧ (idsOf (finalize cutoff (combinedOf tg (loadStore cutoff disk) results))).Nodup
    ∧ ∀ i, i ∈ idsOf (finalize cutoff (combinedOf tg (loadStore cutoff disk) results)) ↔
        ∃ r, (r ∈ diskRows disk ∨ r ∈ mkFetched results) ∧ r.id = i ∧
          dateGe r.date cutoff = true := by
  have hdbnd : (idsOf (loadStore cutoff disk)).Nodup := loadStore_nodup hdisk
  have hcnd : (idsOf (combinedOf tg (loadStore cutoff disk) results)).Nodup :=
    combinedOf_nodup tg _ results hdbnd hfetch
  have hcond : (results.isEmpty && (loadStore cutoff disk).isEmpty) = false := by
    cases results with
    | nil =>
      cases hl : loadStore cutoff disk with
      | nil => exact absurd ⟨rfl, hl⟩ hw
      | cons b bs => rfl
    | cons a as => rfl
  refine ⟨?_, fun r hr => finalize_dates hr, finalize_nodup _ _, fun i => ?_⟩
  · simp only [runCycleDisk]
    rw [hcond]
    simp
  · have hfin : finalize cutoff (combinedOf tg (loadStore cutoff disk) results) =
        (cutoffKeep cutoff (combinedOf tg (loadStore cutoff disk) results)).map labelRec := by
      unfold finalize
      rw [dedup_eq_self hcnd]
    rw [hfin, idsOf_map labelRec labelRec_id, mem_ids_cutoffKeep]
    constructor
    · rintro ⟨r, hrc, rfl, hd⟩
      rcases combinedOf_sub hrc with h | ⟨r1, hr1, rfl⟩
      · rcases loadStore_sub h with ⟨r0, hr0, rfl, _⟩
        exact ⟨r0, Or.inl hr0, rfl, hd⟩
      · exact ⟨r1, Or.inr ((new_data_not_in_db hr1).1), rfl, hd⟩
    · rintro ⟨r0, hor, rfl, hd⟩
      rcases hor with h0 | h0
      · cases disk with
        | none => simp [diskRows] at h0
        | some t =>
          have hm : migrateRec r0 ∈ loadStore cutoff (some t) := loadStore_mem_of h0 hd
          exact ⟨migrateRec r0, combinedOf_superset_db hm, rfl, hd⟩
      · by_cases hmem : r0.id ∈ idsOf (loadStore cutoff disk)
        · rcases List.mem_map.mp hmem with ⟨rd, hrd, hdid⟩
          exact ⟨rd, combinedOf_superset_db hrd, hdid, loadStore_dates hrd⟩
        · have hndm : r0 ∈ new_data (loadStore cutoff disk) (mkFetched results) :=
            new_data_mem_of h0 hmem
          exact ⟨scoreRec tg r0, combinedOf_mem_scored hndm, rfl, hd⟩

/-- A persisting cycle on a concrete store writes the finalized table. -/
theorem c2_retention_witness :
    runCycleDisk tgW "2026-10-07" (some { legacyCol := false, rows := [recK] }) [] =
      some { legacyCol := false,
             rows := finalize "2026-10-07"
               (combinedOf tgW (loadStore "2026-10-07"
                  (some { legacyCol := false, rows := [recK] })) []) } :=
  (c2_retention_amended tgW "2026-10-07" (some { legacyCol := false, rows := [recK] }) []
    (by decide) (by decide) (by decide)).1

/- ---------------------------------------------------------------------
   C8: a second cycle with nothing new is a no-op on the stored table.
   --------------------------------------------------------------------- -/

/-- C8: running a second cycle (same cutoff) in which every fetched record's
id is already present in the store loaded from the first cycle's output
leaves the persisted table exactly as the first cycle left it. -/
theorem c8_idempotent (tg : Rec → String) (cutoff : String)
    (disk : Option StoredTable) (results1 results2 : List Raw)
    (hnew : ∀ r ∈ mkFetched results2,
        r.id ∈ idsOf (loadStore cutoff (runCycleDisk tg cutoff disk results1))) :
    runCycleDisk tg cutoff (runCycleDisk tg cutoff disk results1) results2
      = runCycleDisk tg cutoff disk results1 := by
  by_cases hc1 : (results1.isEmpty && (loadStore cutoff disk).isEmpty) = true
  · have hd1 : runCycleDisk tg cutoff disk results1 = disk := by
      simp only [runCycleDisk]
      rw [if_pos hc1]
    have hdb : loadStore cutoff disk = [] :=
      List.isEmpty_iff.mp (Bool.and_eq_true_iff.mp hc1).2
    rw [hd1] at hnew ⊢
    have hres2 : results2 = [] := by
      cases hr : results2 with
      | nil => rfl
      | cons a as =>
        exfalso
        have hmem : normalizeRec a ∈ mkFetched results2 := by
          rw [hr]
          exact List.mem_cons_self _ _
        have h2 := hnew _ hmem
        rw [hdb] at h2
        simp at h2
    rw [hres2]
    simp only [runCycleDisk]
    rw [if_pos (by rw [hdb]; rfl)]
  · have hd1 : runCycleDisk tg cutoff disk results1 =
        some { legacyCol := false,
               rows := finalize cutoff (combinedOf tg (loadStore cutoff disk) results1) } := by
      simp only [runCycleDisk]
      rw [if_neg hc1]
    set out1 := finalize cutoff (combinedOf tg (loadStore cutoff disk) results1) with hout
    have hnodup1 : (idsOf out1).Nodup := finalize_nodup _ _
    have hdates1 : ∀ r ∈ out1, dateGe r.date cutoff = true := fun r hr => finalize_dates hr
    have hlabel1 : ∀ r ∈ out1, r.label = r.title := fun r hr => finalize_label hr
    have hrep1 : ∀ r ∈ out1, migrateVal r.Reputation = r.Reputation := by
      intro r hr
      rcases finalize_sub hr with ⟨r0, hr0, rfl⟩
      rw [labelRec_rep]
      rcases combinedOf_sub hr0 with h | ⟨r1, hr1, rfl⟩
      · rcases loadStore_sub h with ⟨rd, _, rfl, _⟩
        rw [migrateRec_rep]
        exact migrateVal_idem _
      · rw [show (scoreRec tg r1).Reputation = calculate_reputation r1 from rfl]
        exact migrateVal_fix (calc_rep_not_legacy r1).1 (calc_rep_not_legacy r1).2
    have hmap : out1.map migrateRec = out1 := by
      calc out1.map migrateRec = out1.map id :=
            List.map_congr_left (fun r hr => migrateRec_eq_self (hrep1 r hr))
        _ = out1 := List.map_id _
    have hload : loadStore cutoff (some { legacyCol := false, rows := out1 }) = out1 := by
      show cutoffKeep cutoff (out1.map migrateRec) = out1
      rw [hmap]
      exact cutoffKeep_eq_self hdates1
    rw [hd1] at hnew ⊢
    rw [hload] at hnew
    have hnd2 : new_data out1 (mkFetched results2) = [] := by
      rw [new_data_eq_filter]
      apply List.filter_eq_nil_iff.mpr
      intro r hr
      simp [hnew r hr]
    by_cases hc2 : (results2.isEmpty && out1.isEmpty) = true
    · simp only [runCycleDisk]
      rw [hload, if_pos hc2]
    · have hcomb2 : combinedOf tg out1 results2 = out1 := by
        unfold combinedOf
        by_cases hres2 : results2.isEmpty = true
        · rw [if_pos hres2]
        · rw [if_neg hres2]
          show (if (new_data out1 (mkFetched results2)).isEmpty = true then out1
                else out1 ++ scoreNew tg (new_data out1 (mkFetched results2))) = out1
          rw [hnd2]
          rfl
      have hfin2 : finalize cutoff out1 = out1 := by
        unfold finalize
        rw [dedup_eq_self hnodup1, cutoffKeep_eq_self hdates1]
        calc out1.map labelRec = out1.map id :=
              List.map_congr_left (fun r hr => labelRec_eq_self (hlabel1 r hr))
          _ = out1 := List.map_id _
      simp only [runCycleDisk]
      rw [hload, if_neg hc2, hcomb2, hfin2]

/-- Re-fetching an already-stored record in the next cycle leaves the
persisted table identical. -/
theorem c8_idempotent_witness :
    runCycleDisk tgW "2026-10-07" (runCycleDisk tgW "2026-10-07" none [rawNew]) [rawNew]
      = runCycleDisk tgW "2026-10-07" none [rawNew] :=
  c8_idempotent tgW "2026-10-07" none [rawNew] [rawNew] (by decide)
